import Mathlib

/-!
# Verification of the Food Donation Directory schema normalizer

Shallow embedding of the schema-normalization pipeline of
`food_wastage_app/app.py` (`normalize`, `try_match_column`, `ensure_schema`,
`normalize_role`, the id repair via `pandas.factorize`, the phone cleaning
and the `fillna("")` step), together with the contact-link builders
(`whatsapp_link`, `tel_link`, `mailto_link`).

Tables are modelled the way `pandas` stores them: an ordered list of named
columns, each an ordered list of cells.  A cell is `none` for a missing
value (`NaN`) and otherwise holds a string or an integer, the two value
kinds that occur in the app's data flow.  The pandas behaviours the code
relies on are embedded explicitly: dictionary comprehensions overwrite
earlier entries (`try_match_column`'s exact pass keeps the *last* column
with a given normalized name), `pd.factorize` assigns dense codes in
first-seen order and gives the sentinel `-1` to missing values, and column
assignment aligns on the DataFrame index (so the index established by the
first assigned column, `id`, governs the length of every later column; if
the very first assignment is the scalar `""`, the index is empty).
-/

set_option maxRecDepth 4000

namespace FoodApp

/-- A pandas cell value: a string or an integer. -/
inductive Value where
  | str (s : String)
  | intv (n : Int)
deriving DecidableEq, Repr

/-- A cell: `none` models a missing value (`NaN`). -/
abbrev Cell := Option Value

/-- A DataFrame: ordered named columns of cells. -/
structure Table where
  colsData : List (String × List Cell)
deriving DecidableEq, Repr

/-- The column names of a table, in order (`df.columns`). -/
def Table.cols (df : Table) : List String := df.colsData.map Prod.fst

/-- `df[c]`: the cells of column `c` (first column with that name). -/
def getCol (df : Table) (c : String) : List Cell :=
  (df.colsData.lookup c).getD []

/-- The alias table `REQUIRED_COLUMNS` of `app.py`. -/
def REQUIRED_COLUMNS : List (String × List String) :=
  [ ("id", ["id", "record_id", "sr_no", "sno", "index"]),
    ("city", ["city", "location", "area", "district", "place", "town"]),
    ("name", ["provider", "provider_name", "name", "organisation", "organization", "org", "ngo", "restaurant"]),
    ("role", ["role", "type", "entity", "party", "stakeholder"]),
    ("food_type", ["food_type", "food", "category", "cuisine"]),
    ("meal_type", ["meal_type", "meal", "course"]),
    ("phone", ["phone", "mobile", "contact", "contact_number", "phone_no", "phone_number"]),
    ("email", ["email", "mail", "email_id"]),
    ("address", ["address", "addr", "street"]),
    ("notes", ["notes", "remarks", "comment", "comments", "description"]) ]

/-- `DEFAULT_COLUMNS` of `app.py`: the ten canonical schema fields in order. -/
def DEFAULT_COLUMNS : List String :=
  ["id", "city", "name", "role", "food_type", "meal_type", "phone", "email", "address", "notes"]

/-- The five mandatory fields checked in `ensure_schema`, in the order the
code's dictionary iteration produces them. -/
def MANDATORY : List String := ["city", "name", "role", "food_type", "phone"]

/-- Characters kept by the regex `[^a-z0-9]+` deletion in `normalize`. -/
def isKeptChar (c : Char) : Bool :=
  ('a' ≤ c && c ≤ 'z') || ('0' ≤ c && c ≤ '9')

/-- Python's `str.strip()` on a character list: drop whitespace at both ends. -/
def trimL (l : List Char) : List Char :=
  ((l.dropWhile Char.isWhitespace).reverse.dropWhile Char.isWhitespace).reverse

/-- `normalize(s)` of `app.py`: strip, lower-case, delete non-`[a-z0-9]`. -/
def normalize (s : String) : String :=
  ⟨((trimL s.data).map Char.toLower).filter isKeptChar⟩

/-- Does `needle` occur at the start of `hay`? -/
def startsWithL : List Char → List Char → Bool
  | [], _ => true
  | _ :: _, [] => false
  | a :: as, b :: bs => (a == b) && startsWithL as bs

/-- Python's `needle in hay` substring test on character lists. -/
def containsL (needle : List Char) : List Char → Bool
  | [] => needle.isEmpty
  | b :: bs => startsWithL needle (b :: bs) || containsL needle bs

/-- Python's `needle in hay` on strings. -/
def strContains (needle hay : String) : Bool :=
  containsL needle.data hay.data

/-- Lookup in the dict comprehension `{normalize(c): c for c in df_cols}`:
later columns overwrite earlier ones, so the *last* column whose normalized
name equals `key` wins. -/
def dictLast (key : String) : List String → Option String
  | [] => none
  | c :: cs =>
    match dictLast key cs with
    | some r => some r
    | none => if normalize c = key then some c else none

/-- The first loop of `try_match_column`: first candidate alias whose
normalized form is a key of the normalized-columns dict wins. -/
def firstHit (dfCols : List String) : List String → Option String
  | [] => none
  | cand :: rest =>
    match dictLast (normalize cand) dfCols with
    | some c => some c
    | none => firstHit dfCols rest

/-- The second loop of `try_match_column`: first column (in original order)
whose normalized name contains some normalized alias as a substring. -/
def firstContain (candidates : List String) : List String → Option String
  | [] => none
  | col :: rest =>
    if candidates.any (fun a => strContains (normalize a) (normalize col)) then some col
    else firstContain candidates rest

/-- `try_match_column(df_cols, candidates)` of `app.py`. -/
def try_match_column (dfCols candidates : List String) : Option String :=
  match firstHit dfCols candidates with
  | some c => some c
  | none => firstContain candidates dfCols

/-- One entry of the column mapping built at the top of `ensure_schema`. -/
def buildMapping (cols : List String) (target : String) : Option String :=
  match REQUIRED_COLUMNS.lookup target with
  | some aliases => try_match_column cols aliases
  | none => none

/-- The `missing` list of `ensure_schema`: mandatory fields whose alias
matching failed. -/
def effMissing (df : Table) : List String :=
  MANDATORY.filter (fun k => (buildMapping df.cols k).isNone)

/-- The mapping after the interactive prompt: fields in `missing` take the
user-supplied choice, all others keep the alias-matched column. -/
def effMapping (df : Table) (supplied : String → Option String) : String → Option String :=
  fun k => if k ∈ effMissing df then supplied k else buildMapping df.cols k

/-- `series.reindex(RangeIndex(n))`: keep the first `n` entries, pad with
missing values. -/
def reindexTo (n : Nat) (l : List Cell) : List Cell :=
  (List.range n).map (fun i => l.getD i none)

/-- A column of `n` blank strings (`unified[target] = ""` broadcast). -/
def blankCol (n : Nat) : List Cell :=
  List.replicate n (some (Value.str ""))

/-- Length of the index of the unified frame: set by the first column
assignment, which is `unified["id"]`.  A mapped `id` column fixes the
index to that column's length; the scalar `""` assigned to an empty frame
leaves the index empty. -/
def projIndexLen (df : Table) (mapping : String → Option String) : Nat :=
  match mapping "id" with
  | some src => if src ∈ df.cols then (getCol df src).length else 0
  | none => 0

/-- One unified column as built by the `for target in DEFAULT_COLUMNS` loop:
a mapped column is copied (aligned to the frame's index), an unmapped one is
filled with blank strings. -/
def projCol (df : Table) (mapping : String → Option String) (target : String) : List Cell :=
  match mapping target with
  | some src =>
    if src ∈ df.cols then reindexTo (projIndexLen df mapping) (getCol df src)
    else blankCol (projIndexLen df mapping)
  | none => blankCol (projIndexLen df mapping)

/-- The projection step of `ensure_schema` as a table: exactly the ten
canonical columns, in fixed order. -/
def project (df : Table) (mapping : String → Option String) : Table :=
  ⟨DEFAULT_COLUMNS.map (fun tgt => (tgt, projCol df mapping tgt))⟩

/-- Index of the first occurrence of `v`. -/
def findIdx (v : Value) : List Value → Option Nat
  | [] => none
  | w :: ws => if w = v then some 0 else (findIdx v ws).map (· + 1)

/-- `pd.factorize` codes, with the list of labels seen so far: a value gets
the index of its first occurrence, a new value gets the next dense code,
and a missing value gets the sentinel `-1`. -/
def factorizeGo (seen : List Value) : List Cell → List Int
  | [] => []
  | none :: rest => (-1) :: factorizeGo seen rest
  | some v :: rest =>
    match findIdx v seen with
    | some i => (i : Int) :: factorizeGo seen rest
    | none => ((seen.length : Nat) : Int) :: factorizeGo (seen ++ [v]) rest

/-- `pd.factorize(col)[0]`. -/
def factorize (cells : List Cell) : List Int := factorizeGo [] cells

/-- The labels accumulated by `factorizeGo`, in first-seen order. -/
def seenFinal (seen : List Value) : List Cell → List Value
  | [] => seen
  | none :: rest => seenFinal seen rest
  | some v :: rest =>
    match findIdx v seen with
    | some _ => seenFinal seen rest
    | none => seenFinal (seen ++ [v]) rest

/-- The id coercion step of `ensure_schema`: if every id cell is missing or
every id cell is the empty string, generate `1..n`; otherwise
`pd.factorize(ids)[0] + 1`. -/
def repair_ids (cells : List Cell) : List Int :=
  if cells.all (fun c => decide (c = none)) || cells.all (fun c => decide (c = some (Value.str ""))) then
    (List.range cells.length).map (fun i : Nat => (i : Int) + 1)
  else
    (factorize cells).map (fun i => i + 1)

/-- Python's `str(v)` on a cell: `NaN` prints as `"nan"`. -/
def pyStr : Cell → String
  | none => "nan"
  | some (Value.str s) => s
  | some (Value.intv n) => toString n

/-- `str(v).strip().lower()` as computed inside `normalize_role`. -/
def roleKey (c : Cell) : String :=
  ⟨(trimL (pyStr c).data).map Char.toLower⟩

/-- `normalize_role` of `app.py` (`t` is `roleKey c`). -/
def normalize_role (c : Cell) : String :=
  if strContains "receiv" (roleKey c) || (roleKey c == "receiver") ||
      (roleKey c == "acceptor") || (roleKey c == "beneficiary") then
    "Receiver"
  else
    "Provider"

/-- `re.sub(r"\D+", "", s)`: keep only ASCII digits. -/
def digitsOnly (s : String) : String :=
  ⟨s.data.filter Char.isDigit⟩

/-- The `fillna("")` step on one cell. -/
def fillCell : Cell → Cell
  | none => some (Value.str "")
  | some v => some v

/-- One column of the normalized table: the projected column transformed by
the id repair, role normalization, phone cleaning or blank fill. -/
def normCol (df : Table) (mapping : String → Option String) (tgt : String) : List Cell :=
  if tgt = "id" then
    (repair_ids (projCol df mapping "id")).map (fun v => some (Value.intv v))
  else if tgt = "role" then
    (projCol df mapping "role").map (fun c => some (Value.str (normalize_role c)))
  else if tgt = "phone" then
    (projCol df mapping "phone").map (fun c => some (Value.str (digitsOnly (pyStr c))))
  else
    (projCol df mapping tgt).map fillCell

/-- The body of `ensure_schema` after the mapping is settled: projection,
id repair, role normalization, phone cleaning, blank fill. -/
def normBuild (df : Table) (mapping : String → Option String) : Table :=
  ⟨DEFAULT_COLUMNS.map (fun tgt => (tgt, normCol df mapping tgt))⟩

/-- `ensure_schema(df)` of `app.py`.  The interactive mapping prompt is the
`supplied` argument; `st.stop()` is the `error` branch, carrying the list of
mandatory fields that alias matching failed to resolve. -/
def ensure_schema (df : Table) (supplied : String → Option String) : Except (List String) Table :=
  if (effMissing df).any (fun k => (effMapping df supplied k).isNone) then
    Except.error (effMissing df)
  else
    Except.ok (normBuild df (effMapping df supplied))

/-- One hexadecimal digit, upper case. -/
def hexDigit (n : Nat) : Char :=
  if n < 10 then Char.ofNat (48 + n) else Char.ofNat (55 + n)

/-- `%XX` percent-encoding of one byte. -/
def pctByte (b : Nat) : List Char :=
  ['%', hexDigit (b / 16), hexDigit (b % 16)]

/-- UTF-8 bytes of a character. -/
def utf8Bytes (c : Char) : List Nat :=
  let v := c.toNat
  if v < 128 then [v]
  else if v < 2048 then [192 + v / 64, 128 + v % 64]
  else if v < 65536 then [224 + v / 4096, 128 + (v / 64) % 64, 128 + v % 64]
  else [240 + v / 262144, 128 + (v / 4096) % 64, 128 + (v / 64) % 64, 128 + v % 64]

/-- Characters `urllib.parse.quote` never encodes (letters, digits, `_.-~`). -/
def isUrlSafe (c : Char) : Bool :=
  c.isAlpha || c.isDigit || (c == '_') || (c == '.') || (c == '-') || (c == '~')

/-- `urllib.parse.quote_plus`: spaces become `+`, safe characters pass
through, everything else is percent-encoded byte by byte. -/
def quote_plus (s : String) : String :=
  ⟨(s.data.map (fun c =>
      if c = ' ' then ['+']
      else if isUrlSafe c then [c]
      else ((utf8Bytes c).map pctByte).flatten)).flatten⟩

/-- `whatsapp_link(phone, msg)` of `app.py`. -/
def whatsapp_link (phone msg : String) : String :=
  "https://wa.me/" ++ digitsOnly phone ++ "?text=" ++ quote_plus msg

/-- `tel_link(phone)` of `app.py`. -/
def tel_link (phone : String) : String :=
  "tel:" ++ digitsOnly phone

/-- `mailto_link(email, subject, body)` of `app.py`. -/
def mailto_link (email subject body : String) : String :=
  "mailto:" ++ email ++ "?subject=" ++ quote_plus subject ++ "&body=" ++ quote_plus body

/-! ## Basic lemmas about the string-matching helpers -/

theorem startsWithL_refl : ∀ l : List Char, startsWithL l l = true
  | [] => rfl
  | a :: as => by simp [startsWithL, startsWithL_refl as]

theorem containsL_refl : ∀ l : List Char, containsL l l = true
  | [] => rfl
  | a :: as => by simp [containsL, startsWithL_refl]

theorem strContains_of_eq {a c : String} (h : a = c) : strContains a c = true := by
  subst h; exact containsL_refl _

/-! ## Lemmas about `dictLast` (the normalized-name dictionary) -/

theorem dictLast_mem {key c : String} :
    ∀ {cols : List String}, dictLast key cols = some c → c ∈ cols ∧ normalize c = key := by
  intro cols
  induction cols with
  | nil => intro h; cases h
  | cons d ds ih =>
    intro h
    simp only [dictLast] at h
    cases hds : dictLast key ds with
    | some r =>
      rw [hds] at h
      obtain ⟨hm, hn⟩ := ih (hds.trans h)
      exact ⟨List.mem_cons_of_mem _ hm, hn⟩
    | none =>
      rw [hds] at h
      by_cases hk : normalize d = key
      · simp [hk] at h
        subst h
        exact ⟨List.mem_cons_self _ _, hk⟩
      · simp [hk] at h

theorem dictLast_eq_none {key : String} :
    ∀ {cols : List String}, (∀ c ∈ cols, normalize c ≠ key) → dictLast key cols = none := by
  intro cols
  induction cols with
  | nil => intro _; rfl
  | cons d ds ih =>
    intro h
    have hds : dictLast key ds = none := ih (fun c hc => h c (List.mem_cons_of_mem _ hc))
    simp only [dictLast, hds]
    simp [h d (List.mem_cons_self _ _)]

theorem dictLast_none_forall {key : String} :
    ∀ {cols : List String}, dictLast key cols = none →
      ∀ c ∈ cols, normalize c ≠ key := by
  intro cols
  induction cols with
  | nil => intro _ c hc; cases hc
  | cons d ds ih =>
    intro h c hc hk
    simp only [dictLast] at h
    cases hds : dictLast key ds with
    | some r => rw [hds] at h; cases h
    | none =>
      rw [hds] at h
      rcases List.mem_cons.mp hc with rfl | hmem
      · by_cases hd : normalize c = key
        · simp [hd] at h
        · exact hd hk
      · exact ih hds c hmem hk

theorem dictLast_ne_none {key c : String} {cols : List String}
    (hc : c ∈ cols) (hk : normalize c = key) : dictLast key cols ≠ none :=
  fun hnone => dictLast_none_forall hnone c hc hk

theorem dictLast_last {key c : String} :
    ∀ {cols : List String}, dictLast key cols = some c →
      ∃ l1 l2, cols = l1 ++ c :: l2 ∧ ∀ x ∈ l2, normalize x ≠ key := by
  intro cols
  induction cols with
  | nil => intro h; cases h
  | cons d ds ih =>
    intro h
    simp only [dictLast] at h
    cases hds : dictLast key ds with
    | some r =>
      rw [hds] at h
      obtain ⟨l1, l2, hsplit, hafter⟩ := ih (hds.trans h)
      exact ⟨d :: l1, l2, by rw [hsplit]; rfl, hafter⟩
    | none =>
      rw [hds] at h
      by_cases hk : normalize d = key
      · simp [hk] at h
        subst h
        exact ⟨[], ds, rfl, dictLast_none_forall hds⟩
      · simp [hk] at h

theorem dictLast_of_unique {key c : String} {cols : List String}
    (hc : c ∈ cols) (hk : normalize c = key)
    (huniq : ∀ x ∈ cols, normalize x = key → x = c) :
    dictLast key cols = some c := by
  cases hres : dictLast key cols with
  | none => exact absurd hres (dictLast_ne_none hc hk)
  | some r =>
    obtain ⟨hm, hn⟩ := dictLast_mem hres
    rw [huniq r hm hn]

/-! ## Lemmas about the two passes of `try_match_column` -/

theorem firstHit_some {cols : List String} {c : String} :
    ∀ {cands : List String}, firstHit cols cands = some c →
      ∃ a ∈ cands, dictLast (normalize a) cols = some c := by
  intro cands
  induction cands with
  | nil => intro h; cases h
  | cons a rest ih =>
    intro h
    simp only [firstHit] at h
    cases ha : dictLast (normalize a) cols with
    | some r =>
      rw [ha] at h
      exact ⟨a, List.mem_cons_self _ _, ha.trans h⟩
    | none =>
      rw [ha] at h
      obtain ⟨b, hb, hd⟩ := ih h
      exact ⟨b, List.mem_cons_of_mem _ hb, hd⟩

theorem firstHit_eq_none {cols : List String} :
    ∀ {cands : List String}, (∀ a ∈ cands, ∀ col ∈ cols, normalize col ≠ normalize a) →
      firstHit cols cands = none := by
  intro cands
  induction cands with
  | nil => intro _; rfl
  | cons a rest ih =>
    intro h
    have ha : dictLast (normalize a) cols = none :=
      dictLast_eq_none (fun col hcol => h a (List.mem_cons_self _ _) col hcol)
    simp only [firstHit, ha]
    exact ih (fun b hb => h b (List.mem_cons_of_mem _ hb))

/-- The containment predicate of the fallback pass. -/
def fuzzyPred (candidates : List String) (col : String) : Bool :=
  candidates.any (fun a => strContains (normalize a) (normalize col))

theorem firstContain_decomp {cands : List String} {c : String} :
    ∀ {cols : List String}, firstContain cands cols = some c →
      c ∈ cols ∧ fuzzyPred cands c = true ∧
        ∃ l1 l2, cols = l1 ++ c :: l2 ∧ ∀ x ∈ l1, fuzzyPred cands x = false := by
  intro cols
  induction cols with
  | nil => intro h; cases h
  | cons col rest ih =>
    intro h
    simp only [firstContain] at h
    by_cases hp : cands.any (fun a => strContains (normalize a) (normalize col)) = true
    · rw [if_pos hp] at h
      cases h
      exact ⟨List.mem_cons_self _ _, hp, [], rest, rfl, by intro x hx; cases hx⟩
    · rw [if_neg hp] at h
      obtain ⟨hm, hpred, l1, l2, hsplit, hbefore⟩ := ih h
      refine ⟨List.mem_cons_of_mem _ hm, hpred, col :: l1, l2, by rw [hsplit]; rfl, ?_⟩
      intro x hx
      rcases List.mem_cons.mp hx with rfl | hmem
      · exact Bool.eq_false_iff.mpr hp
      · exact hbefore x hmem

theorem firstContain_ne_none {cands : List String} {cols : List String} {col : String}
    (hc : col ∈ cols) (hp : fuzzyPred cands col = true) :
    firstContain cands cols ≠ none := by
  induction cols with
  | nil => cases hc
  | cons d rest ih =>
    intro h
    simp only [firstContain] at h
    by_cases hd : cands.any (fun a => strContains (normalize a) (normalize d)) = true
    · rw [if_pos hd] at h; cases h
    · rw [if_neg hd] at h
      rcases List.mem_cons.mp hc with rfl | hmem
      · exact hd hp
      · exact ih hmem h

theorem firstContain_none_forall {cands : List String} :
    ∀ {cols : List String}, firstContain cands cols = none →
      ∀ col ∈ cols, fuzzyPred cands col = false := by
  intro cols
  induction cols with
  | nil => intro _ col hc; cases hc
  | cons d rest ih =>
    intro h col hc
    simp only [firstContain] at h
    by_cases hd : cands.any (fun a => strContains (normalize a) (normalize d)) = true
    · rw [if_pos hd] at h; cases h
    · rw [if_neg hd] at h
      rcases List.mem_cons.mp hc with rfl | hmem
      · exact Bool.eq_false_iff.mpr hd
      · exact ih h col hmem

theorem firstHit_append {cols pre post : List String} {a0 : String}
    (hpre : ∀ a ∈ pre, ∀ col ∈ cols, normalize col ≠ normalize a)
    (hhit : dictLast (normalize a0) cols ≠ none) :
    firstHit cols (pre ++ a0 :: post) = dictLast (normalize a0) cols := by
  induction pre with
  | nil =>
    simp only [List.nil_append, firstHit]
    cases hd : dictLast (normalize a0) cols with
    | some r => rfl
    | none => exact absurd hd hhit
  | cons a rest ih =>
    have ha : dictLast (normalize a) cols = none :=
      dictLast_eq_none (fun col hcol => hpre a (List.mem_cons_self _ _) col hcol)
    simp only [List.cons_append, firstHit, ha]
    exact ih (fun b hb => hpre b (List.mem_cons_of_mem _ hb))

theorem firstHit_unique {cols : List String} {col : String} (hcol : col ∈ cols) :
    ∀ {cands : List String}, (∃ a ∈ cands, normalize a = normalize col) →
      (∀ x ∈ cols, x ≠ col → ∀ a ∈ cands, strContains (normalize a) (normalize x) = false) →
      firstHit cols cands = some col := by
  intro cands
  induction cands with
  | nil => rintro ⟨a, ha, _⟩ _; cases ha
  | cons a rest ih =>
    rintro ⟨b, hb, hbkey⟩ huniq
    simp only [firstHit]
    cases hd : dictLast (normalize a) cols with
    | some r =>
      by_cases hrc : r = col
      · rw [hrc]
      · obtain ⟨hrm, hrn⟩ := dictLast_mem hd
        have : strContains (normalize a) (normalize r) = true := strContains_of_eq hrn.symm
        rw [huniq r hrm hrc a (List.mem_cons_self _ _)] at this
        cases this
    | none =>
      rcases List.mem_cons.mp hb with rfl | hbrest
      · exact absurd hd (dictLast_ne_none hcol hbkey.symm)
      · exact ih ⟨b, hbrest, hbkey⟩
          (fun x hx hne c hc => huniq x hx hne c (List.mem_cons_of_mem _ hc))

/-- **C5**: `try_match_column` canonicalizes names with `normalize` and
resolves in two passes.  (1) Any result is an original raw column whose
canonical form contains some canonical alias.  (2) Exact pass with alias
priority: if `a0` is the first alias having an exact canonical match among
the columns, the result is a column whose canonical form equals `a0`'s.
(3) The result is `none` exactly when no raw column's canonical form
contains any canonical alias.  (4) Variant recovery: if a raw column is a
case/punctuation variant of some alias and no other raw column is related
to any alias, that raw column is returned. -/
theorem try_match_column_spec (cols cands : List String) :
    (∀ c, try_match_column cols cands = some c →
        c ∈ cols ∧ ∃ a ∈ cands, strContains (normalize a) (normalize c) = true) ∧
    (∀ pre a0 post, cands = pre ++ a0 :: post →
        (∀ a ∈ pre, ∀ col ∈ cols, normalize col ≠ normalize a) →
        (∃ col ∈ cols, normalize col = normalize a0) →
        ∃ c ∈ cols, try_match_column cols cands = some c ∧ normalize c = normalize a0) ∧
    (try_match_column cols cands = none ↔
        ∀ col ∈ cols, ∀ a ∈ cands, strContains (normalize a) (normalize col) = false) ∧
    (∀ col ∈ cols, (∃ a ∈ cands, normalize a = normalize col) →
        (∀ x ∈ cols, x ≠ col → ∀ a ∈ cands, strContains (normalize a) (normalize x) = false) →
        try_match_column cols cands = some col) := by
  refine ⟨?_, ?_, ?_, ?_⟩
  · -- soundness
    intro c h
    unfold try_match_column at h
    cases hfh : firstHit cols cands with
    | some r =>
      rw [hfh] at h
      cases h
      obtain ⟨a, ha, hd⟩ := firstHit_some hfh
      obtain ⟨hm, hn⟩ := dictLast_mem hd
      exact ⟨hm, a, ha, strContains_of_eq hn.symm⟩
    | none =>
      rw [hfh] at h
      obtain ⟨hm, hp, _⟩ := firstContain_decomp h
      obtain ⟨a, ha, hc⟩ := List.any_eq_true.mp hp
      exact ⟨hm, a, ha, hc⟩
  · -- exact pass with alias priority
    intro pre a0 post hsplit hpre hexists
    obtain ⟨col, hcol, hkey⟩ := hexists
    have hne : dictLast (normalize a0) cols ≠ none := dictLast_ne_none hcol hkey
    cases hd : dictLast (normalize a0) cols with
    | none => exact absurd hd hne
    | some c =>
      obtain ⟨hm, hn⟩ := dictLast_mem hd
      refine ⟨c, hm, ?_, hn⟩
      unfold try_match_column
      rw [hsplit, firstHit_append hpre hne, hd]
  · -- failure characterization
    constructor
    · intro h col hcol a ha
      unfold try_match_column at h
      cases hfh : firstHit cols cands with
      | some r => rw [hfh] at h; cases h
      | none =>
        rw [hfh] at h
        have := firstContain_none_forall h col hcol
        simp only [fuzzyPred, List.any_eq_true, not_exists] at this
        by_cases hc : strContains (normalize a) (normalize col) = true
        · exact absurd (List.any_eq_true.mpr ⟨a, ha, hc⟩) (by simp [fuzzyPred] at this ⊢; exact this)
        · exact Bool.eq_false_iff.mpr hc
    · intro h
      have hfh : firstHit cols cands = none := by
        apply firstHit_eq_none
        intro a ha col hcol heq
        have := h col hcol a ha
        rw [strContains_of_eq heq.symm] at this
        cases this
      unfold try_match_column
      rw [hfh]
      cases hfc : firstContain cands cols with
      | none => rfl
      | some c =>
        obtain ⟨hm, hp, _⟩ := firstContain_decomp hfc
        obtain ⟨a, ha, hc⟩ := List.any_eq_true.mp hp
        rw [h c hm a ha] at hc
        cases hc
  · -- unique variant recovery
    intro col hcol hex huniq
    unfold try_match_column
    rw [firstHit_unique hcol hex huniq]

/-- Witness for C5: the raw column `"Provider Name"` is a case/punctuation
variant of the alias `"provider_name"` of the `name` field and is returned. -/
theorem try_match_column_spec_witness :
    try_match_column ["Provider Name", "City"]
        ["provider", "provider_name", "name", "organisation", "organization", "org", "ngo", "restaurant"]
      = some "Provider Name" :=
  (try_match_column_spec _ _).2.2.2 "Provider Name" (by decide)
    ⟨"provider_name", by decide, by decide⟩ (by decide)

/-- **C10**: tie-breaking.  In the exact pass the normalized-name dictionary
is built with later columns overwriting earlier ones, so the *last* raw
column with the matched canonical form is returned; the substring fallback
returns the *first* raw column (in original order) that matches. -/
theorem try_match_column_order (cols cands : List String) :
    (∀ pre a0 post, cands = pre ++ a0 :: post →
        (∀ a ∈ pre, ∀ col ∈ cols, normalize col ≠ normalize a) →
        (∃ col ∈ cols, normalize col = normalize a0) →
        ∃ c l1 l2, try_match_column cols cands = some c ∧ cols = l1 ++ c :: l2 ∧
          normalize c = normalize a0 ∧ ∀ x ∈ l2, normalize x ≠ normalize a0) ∧
    ((∀ a ∈ cands, ∀ col ∈ cols, normalize col ≠ normalize a) →
        ∀ c, try_match_column cols cands = some c →
        ∃ l1 l2, cols = l1 ++ c :: l2 ∧
          (∃ a ∈ cands, strContains (normalize a) (normalize c) = true) ∧
          ∀ x ∈ l1, ∀ a ∈ cands, strContains (normalize a) (normalize x) = false) := by
  constructor
  · intro pre a0 post hsplit hpre hexists
    obtain ⟨col, hcol, hkey⟩ := hexists
    have hne : dictLast (normalize a0) cols ≠ none := dictLast_ne_none hcol hkey
    cases hd : dictLast (normalize a0) cols with
    | none => exact absurd hd hne
    | some c =>
      obtain ⟨_, hn⟩ := dictLast_mem hd
      obtain ⟨l1, l2, hdec, hafter⟩ := dictLast_last hd
      refine ⟨c, l1, l2, ?_, hdec, hn, hafter⟩
      unfold try_match_column
      rw [hsplit, firstHit_append hpre hne, hd]
  · intro hnoexact c h
    have hfh : firstHit cols cands = none := firstHit_eq_none hnoexact
    unfold try_match_column at h
    rw [hfh] at h
    obtain ⟨_, hp, l1, l2, hdec, hbefore⟩ := firstContain_decomp h
    obtain ⟨a, ha, hc⟩ := List.any_eq_true.mp hp
    refine ⟨l1, l2, hdec, ⟨a, ha, hc⟩, ?_⟩
    intro x hx b hb
    have := hbefore x hx
    simp only [fuzzyPred] at this
    by_cases hbc : strContains (normalize b) (normalize x) = true
    · exact absurd (List.any_eq_true.mpr ⟨b, hb, hbc⟩) (by rw [this]; simp)
    · exact Bool.eq_false_iff.mpr hbc

/-- Witness for C10: with raw columns `["Contact", "phone", "Phone#"]` and
the alias list `["phone", "mobile"]`, the exact pass matches the canonical
form `"phone"` and the last such column is returned. -/
theorem try_match_column_order_witness :
    ∃ c l1 l2, try_match_column ["Contact", "phone", "Phone#"] ["phone", "mobile"] = some c ∧
      ["Contact", "phone", "Phone#"] = l1 ++ c :: l2 ∧
      normalize c = normalize "phone" ∧ ∀ x ∈ l2, normalize x ≠ normalize "phone" :=
  (try_match_column_order _ _).1 [] "phone" ["mobile"] rfl (by simp)
    ⟨"phone", by decide, by decide⟩

/-! ## Lemmas about `findIdx` -/

theorem findIdx_lt_length {v : Value} :
    ∀ {l : List Value} {i : Nat}, findIdx v l = some i → i < l.length := by
  intro l
  induction l with
  | nil => intro i h; cases h
  | cons w ws ih =>
    intro i h
    simp only [findIdx] at h
    by_cases hw : w = v
    · rw [if_pos hw] at h
      cases h
      simp
    · rw [if_neg hw] at h
      cases hrec : findIdx v ws with
      | none => rw [hrec] at h; cases h
      | some j =>
        rw [hrec] at h
        cases h
        simpa using ih hrec

theorem findIdx_append_left {v : Value} :
    ∀ {l1 : List Value} {i : Nat} (l2 : List Value),
      findIdx v l1 = some i → findIdx v (l1 ++ l2) = some i := by
  intro l1
  induction l1 with
  | nil => intro i l2 h; cases h
  | cons w ws ih =>
    intro i l2 h
    simp only [findIdx] at h
    rw [List.cons_append]
    simp only [findIdx]
    by_cases hw : w = v
    · rw [if_pos hw] at h ⊢; exact h
    · rw [if_neg hw] at h ⊢
      cases hrec : findIdx v ws with
      | none => rw [hrec] at h; cases h
      | some j =>
        rw [hrec] at h
        rw [ih l2 hrec]
        exact h

theorem findIdx_eq_none_iff {v : Value} :
    ∀ {l : List Value}, findIdx v l = none ↔ v ∉ l := by
  intro l
  induction l with
  | nil => simp [findIdx]
  | cons w ws ih =>
    by_cases hw : w = v
    · subst hw
      simp [findIdx]
    · simp only [findIdx, if_neg hw, List.mem_cons]
      cases hrec : findIdx v ws with
      | none =>
        have hmem : v ∉ ws := ih.mp hrec
        have hvw : ¬v = w := fun he => hw he.symm
        simp [hmem, hvw]
      | some j =>
        have hmem : v ∈ ws := by
          by_contra hn
          rw [ih.mpr hn] at hrec
          cases hrec
        simp [hmem]

theorem findIdx_append_self {v : Value} {l1 l2 : List Value} (h : v ∉ l1) :
    findIdx v (l1 ++ v :: l2) = some l1.length := by
  induction l1 with
  | nil => simp [findIdx]
  | cons w ws ih =>
    have hw : w ≠ v := fun he => h (he ▸ List.mem_cons_self _ _)
    rw [List.cons_append]
    simp only [findIdx, if_neg hw]
    rw [ih (fun hm => h (List.mem_cons_of_mem _ hm))]
    rfl

theorem findIdx_isSome_of_mem {v : Value} {l : List Value} (h : v ∈ l) :
    ∃ i, findIdx v l = some i := by
  cases hf : findIdx v l with
  | none => exact absurd (findIdx_eq_none_iff.mp hf) (by simp [h])
  | some i => exact ⟨i, rfl⟩

theorem findIdx_get_of_nodup :
    ∀ {l : List Value}, l.Nodup → ∀ i (hi : i < l.length), findIdx (l.get ⟨i, hi⟩) l = some i := by
  intro l
  induction l with
  | nil => intro _ i hi; cases hi
  | cons w ws ih =>
    intro hnd i hi
    cases i with
    | zero => simp [findIdx]
    | succ j =>
      have hj : j < ws.length := Nat.lt_of_succ_lt_succ hi
      have hget : (w :: ws).get ⟨j + 1, hi⟩ = ws.get ⟨j, hj⟩ := rfl
      rw [hget]
      have hne : w ≠ ws.get ⟨j, hj⟩ := by
        intro he
        exact (List.nodup_cons.mp hnd).1 (he ▸ List.get_mem ws _ _)
      simp only [findIdx, if_neg hne]
      rw [ih (List.nodup_cons.mp hnd).2 j hj]
      rfl

/-! ## Lemmas about `seenFinal` and `factorizeGo` -/

theorem seenFinal_append :
    ∀ (cells : List Cell) (seen : List Value), ∃ extra, seenFinal seen cells = seen ++ extra := by
  intro cells
  induction cells with
  | nil => intro seen; exact ⟨[], by simp [seenFinal]⟩
  | cons c rest ih =>
    intro seen
    cases c with
    | none => simpa [seenFinal] using ih seen
    | some v =>
      simp only [seenFinal]
      cases hf : findIdx v seen with
      | some i => exact ih seen
      | none =>
        obtain ⟨extra, he⟩ := ih (seen ++ [v])
        exact ⟨[v] ++ extra, by rw [he, List.append_assoc]⟩

theorem mem_seenFinal :
    ∀ (cells : List Cell) (seen : List Value) (v : Value),
      some v ∈ cells ∨ v ∈ seen → v ∈ seenFinal seen cells := by
  intro cells
  induction cells with
  | nil =>
    intro seen v h
    rcases h with h | h
    · cases h
    · simpa [seenFinal] using h
  | cons c rest ih =>
    intro seen v h
    cases c with
    | none =>
      simp only [seenFinal]
      rcases h with h | h
      · rcases List.mem_cons.mp h with he | hm
        · cases he
        · exact ih seen v (Or.inl hm)
      · exact ih seen v (Or.inr h)
    | some w =>
      simp only [seenFinal]
      cases hf : findIdx w seen with
      | some i =>
        rcases h with h | h
        · rcases List.mem_cons.mp h with he | hm
          · cases he
            exact ih seen v (Or.inr (findIdx_eq_none_iff.not_left.mp (by simp [hf])))
          · exact ih seen v (Or.inl hm)
        · exact ih seen v (Or.inr h)
      | none =>
        rcases h with h | h
        · rcases List.mem_cons.mp h with he | hm
          · cases he
            exact ih (seen ++ [v]) v (Or.inr (by simp))
          · exact ih (seen ++ [w]) v (Or.inl hm)
        · exact ih (seen ++ [w]) v (Or.inr (List.mem_append_left _ h))

theorem seenFinal_src :
    ∀ (cells : List Cell) (seen : List Value) (v : Value),
      v ∈ seenFinal seen cells → v ∈ seen ∨ some v ∈ cells := by
  intro cells
  induction cells with
  | nil => intro seen v h; exact Or.inl (by simpa [seenFinal] using h)
  | cons c rest ih =>
    intro seen v h
    cases c with
    | none =>
      simp only [seenFinal] at h
      rcases ih seen v h with h | h
      · exact Or.inl h
      · exact Or.inr (List.mem_cons_of_mem _ h)
    | some w =>
      simp only [seenFinal] at h
      cases hf : findIdx w seen with
      | some i =>
        rw [hf] at h
        rcases ih seen v h with h | h
        · exact Or.inl h
        · exact Or.inr (List.mem_cons_of_mem _ h)
      | none =>
        rw [hf] at h
        rcases ih (seen ++ [w]) v h with h | h
        · rcases List.mem_append.mp h with h | h
          · exact Or.inl h
          · simp at h
            subst h
            exact Or.inr (List.mem_cons_self _ _)
        · exact Or.inr (List.mem_cons_of_mem _ h)

theorem seenFinal_nodup :
    ∀ (cells : List Cell) (seen : List Value), seen.Nodup → (seenFinal seen cells).Nodup := by
  intro cells
  induction cells with
  | nil => intro seen h; simpa [seenFinal] using h
  | cons c rest ih =>
    intro seen h
    cases c with
    | none => simpa [seenFinal] using ih seen h
    | some v =>
      simp only [seenFinal]
      cases hf : findIdx v seen with
      | some i => exact ih seen h
      | none =>
        apply ih
        rw [List.nodup_append]
        refine ⟨h, List.nodup_singleton v, ?_⟩
        intro a ha hb
        simp at hb
        subst hb
        exact (findIdx_eq_none_iff.mp hf) ha

theorem seenFinal_length_le :
    ∀ (cells : List Cell) (seen : List Value),
      (seenFinal seen cells).length ≤ seen.length + cells.length := by
  intro cells
  induction cells with
  | nil => intro seen; simp [seenFinal]
  | cons c rest ih =>
    intro seen
    cases c with
    | none =>
      simp only [seenFinal, List.length_cons]
      exact le_trans (ih seen) (by omega)
    | some v =>
      simp only [seenFinal, List.length_cons]
      cases hf : findIdx v seen with
      | some i => exact le_trans (ih seen) (by omega)
      | none => exact le_trans (ih (seen ++ [v])) (by simp; omega)

/-- The code `pd.factorize` assigns to one cell, given the final label
list: the index of the label's first occurrence, or `-1` for a missing
value. -/
def codeOf (S : List Value) : Cell → Int
  | none => -1
  | some v => ((findIdx v S).getD 0 : Nat)

theorem factorizeGo_eq_map :
    ∀ (cells : List Cell) (seen : List Value),
      factorizeGo seen cells = cells.map (codeOf (seenFinal seen cells)) := by
  intro cells
  induction cells with
  | nil => intro seen; rfl
  | cons c rest ih =>
    intro seen
    cases c with
    | none =>
      simp only [factorizeGo, seenFinal, List.map_cons]
      rw [ih seen]
      rfl
    | some v =>
      simp only [factorizeGo, seenFinal, List.map_cons]
      cases hf : findIdx v seen with
      | some i =>
        obtain ⟨extra, he⟩ := seenFinal_append rest seen
        rw [ih seen]
        simp only [codeOf]
        rw [he, findIdx_append_left extra hf]
        rfl
      | none =>
        obtain ⟨extra, he⟩ := seenFinal_append rest (seen ++ [v])
        rw [ih (seen ++ [v])]
        simp only [codeOf]
        rw [he, List.append_assoc]
        simp only [List.singleton_append]
        rw [findIdx_append_self (findIdx_eq_none_iff.mp hf)]
        rfl

theorem factorize_eq_map (cells : List Cell) :
    factorize cells = cells.map (codeOf (seenFinal [] cells)) :=
  factorizeGo_eq_map cells []

theorem factorize_length (cells : List Cell) : (factorize cells).length = cells.length := by
  rw [factorize_eq_map]; simp

theorem repair_ids_length (cells : List Cell) : (repair_ids cells).length = cells.length := by
  unfold repair_ids
  by_cases h : ((cells.all fun c => decide (c = none)) || (cells.all fun c => decide (c = some (Value.str "")))) = true
  · rw [if_pos h]
    rw [List.length_map, List.length_range]
  · rw [if_neg h]
    rw [List.length_map, factorize_length]

/-! ## `factorize` on pairwise-distinct, fully-present cells -/

theorem factorizeGo_of_nodup :
    ∀ (cells : List Cell) (seen : List Value),
      (∀ c ∈ cells, c ≠ none) → cells.Nodup →
      (∀ v, some v ∈ cells → v ∉ seen) →
      factorizeGo seen cells = (List.range cells.length).map (fun i => ((seen.length + i : Nat) : Int)) := by
  intro cells
  induction cells with
  | nil => intro seen _ _ _; rfl
  | cons c rest ih =>
    intro seen hsome hnd hdisj
    cases c with
    | none => exact absurd rfl (hsome none (List.mem_cons_self _ _))
    | some v =>
      have hvnot : v ∉ seen := hdisj v (List.mem_cons_self _ _)
      simp only [factorizeGo]
      rw [findIdx_eq_none_iff.mpr hvnot]
      have hrest : factorizeGo (seen ++ [v]) rest
          = (List.range rest.length).map (fun i => (((seen ++ [v]).length + i : Nat) : Int)) := by
        apply ih
        · exact fun d hd => hsome d (List.mem_cons_of_mem _ hd)
        · exact (List.nodup_cons.mp hnd).2
        · intro w hw
          intro hmem
          rcases List.mem_append.mp hmem with h | h
          · exact hdisj w (List.mem_cons_of_mem _ hw) h
          · simp at h
            subst h
            exact (List.nodup_cons.mp hnd).1 hw
      rw [hrest]
      simp only [List.length_cons, List.range_succ_eq_map, List.map_cons, List.map_map,
        List.cons.injEq]
      refine ⟨by simp, ?_⟩
      apply List.map_congr_left
      intro i _
      simp only [Function.comp_apply, List.length_append, List.length_singleton]
      omega

theorem repair_ids_of_nodup (cells : List Cell)
    (h1 : ∀ c ∈ cells, c ≠ none) (h2 : cells.Nodup) :
    repair_ids cells = (List.range cells.length).map (fun i : Nat => (i : Int) + 1) := by
  unfold repair_ids
  by_cases hb : ((cells.all fun c => decide (c = none)) || (cells.all fun c => decide (c = some (Value.str "")))) = true
  · rw [if_pos hb]
  · rw [if_neg hb]
    unfold factorize
    rw [factorizeGo_of_nodup cells [] h1 h2 (by intro v _ h; cases h)]
    rw [List.map_map]
    apply List.map_congr_left
    intro i _
    simp only [Function.comp_apply, List.length_nil]
    omega

/-- **C1** counterexample: two rows sharing the raw id `"A1"` both receive
repaired id `1`, so the ids of this 2-row table are not `{1, 2}` with each
id held by exactly one row. -/
theorem repair_ids_duplicate_counterexample :
    repair_ids [some (Value.str "A1"), some (Value.str "A1")] = [1, 1] ∧
      ¬(repair_ids [some (Value.str "A1"), some (Value.str "A1")]).Nodup := by
  decide

/-- **C1** (amended): every repaired id is non-null by construction; when
the raw id values are pairwise distinct and all present — or all blank —
the repaired ids are exactly `1, …, n` in row order: positive, table-unique
and gap-free. -/
theorem repair_ids_invariant_amended (cells : List Cell)
    (h1 : ∀ c ∈ cells, c ≠ none)
    (h2 : cells.Nodup ∨ ∀ c ∈ cells, c = some (Value.str "")) :
    repair_ids cells = (List.range cells.length).map (fun i : Nat => (i : Int) + 1) ∧
      (repair_ids cells).Nodup ∧
      ∀ m ∈ repair_ids cells, 1 ≤ m ∧ m ≤ (cells.length : Int) := by
  have hmain : repair_ids cells = (List.range cells.length).map (fun i : Nat => (i : Int) + 1) := by
    rcases h2 with h2 | h2
    · exact repair_ids_of_nodup cells h1 h2
    · unfold repair_ids
      rw [if_pos]
      rw [Bool.or_eq_true]
      exact Or.inr (List.all_eq_true.mpr (fun c hc => decide_eq_true (h2 c hc)))
  refine ⟨hmain, ?_, ?_⟩
  · rw [hmain]
    exact (List.nodup_range _).map (fun a b hab => by omega)
  · rw [hmain]
    intro m hm
    obtain ⟨i, hi, rfl⟩ := List.mem_map.mp hm
    have := List.mem_range.mp hi
    omega

/-- Witness for C1 (amended) at a concrete table with distinct raw ids. -/
theorem repair_ids_invariant_amended_witness :
    repair_ids [some (Value.str "7"), some (Value.str "B")] = [1, 2] :=
  ((repair_ids_invariant_amended [some (Value.str "7"), some (Value.str "B")]
      (by decide) (Or.inl (by decide))).1).trans (by decide)

/-- **C2** counterexample: a present id `"A1"` next to a missing id makes
`pd.factorize` give the missing row the sentinel `-1`, so the repaired ids
are `[1, 0]` — `0` is not positive, so the id set is not `{1, …, k}`. -/
theorem repair_ids_missing_counterexample :
    repair_ids [some (Value.str "A1"), none] = [1, 0] ∧
      (0 : Int) ∈ repair_ids [some (Value.str "A1"), none] ∧ ¬(1 : Int) ≤ (0 : Int) := by
  decide

/-- **C2** (amended): if every id cell is missing or every id cell is the
blank string, ids are assigned sequentially `1, …, n` in row order.
Otherwise — provided additionally that no id cell is missing — the raw
values are remapped to dense codes in first-seen order: the id values are
exactly `{1, …, k}` for some `k ≤ n`, the output has one id per row, and
rows with equal raw id values receive equal repaired ids. -/
theorem repair_ids_dense_amended (cells : List Cell) :
    ((∀ c ∈ cells, c = none) ∨ (∀ c ∈ cells, c = some (Value.str "")) →
        repair_ids cells = (List.range cells.length).map (fun i : Nat => (i : Int) + 1)) ∧
    ((∀ c ∈ cells, c ≠ none) → (¬∀ c ∈ cells, c = some (Value.str "")) →
        ∃ k : Nat, k ≤ cells.length ∧
          (∀ m : Int, m ∈ repair_ids cells ↔ 1 ≤ m ∧ m ≤ (k : Int)) ∧
          (repair_ids cells).length = cells.length ∧
          ∀ i j (hi : i < (repair_ids cells).length) (hj : j < (repair_ids cells).length),
            cells.getD i none = cells.getD j none →
            (repair_ids cells).get ⟨i, hi⟩ = (repair_ids cells).get ⟨j, hj⟩) := by
  constructor
  · intro h
    unfold repair_ids
    rw [if_pos]
    rw [Bool.or_eq_true]
    rcases h with h | h
    · exact Or.inl (List.all_eq_true.mpr (fun c hc => decide_eq_true (h c hc)))
    · exact Or.inr (List.all_eq_true.mpr (fun c hc => decide_eq_true (h c hc)))
  · intro h1 h2
    have hcond : ¬((cells.all fun c => decide (c = none)) || (cells.all fun c => decide (c = some (Value.str "")))) = true := by
      intro hc
      have hc2 : (cells.all fun c => decide (c = none)) = true ∨
          (cells.all fun c => decide (c = some (Value.str ""))) = true := by
        simpa using hc
      rcases hc2 with hl | hr
      · cases cells with
        | nil => exact h2 (by intro c hc; cases hc)
        | cons c rest =>
          have := of_decide_eq_true (List.all_eq_true.mp hl c (List.mem_cons_self _ _))
          exact h1 c (List.mem_cons_self _ _) this
      · exact h2 (fun c hc => of_decide_eq_true (List.all_eq_true.mp hr c hc))
    have hrepair : repair_ids cells = cells.map (fun c => codeOf (seenFinal [] cells) c + 1) := by
      unfold repair_ids
      rw [if_neg hcond]
      unfold factorize
      rw [factorizeGo_eq_map, List.map_map]
      rfl
    have hlen : (repair_ids cells).length = cells.length := by rw [hrepair]; simp
    have hg : ∀ (p : Nat) (hp : p < (repair_ids cells).length),
        (repair_ids cells).get ⟨p, hp⟩ = codeOf (seenFinal [] cells) (cells.getD p none) + 1 := by
      intro p hp
      have hp2 : p < cells.length := hlen ▸ hp
      rw [List.getD_eq_getElem _ _ hp2]
      simp only [List.get_eq_getElem]
      simp [hrepair]
    refine ⟨(seenFinal [] cells).length, ?_, ?_, hlen, ?_⟩
    · have := seenFinal_length_le cells []
      simpa using this
    · intro m
      constructor
      · intro hm
        rw [hrepair] at hm
        obtain ⟨c, hc, hmc⟩ := List.mem_map.mp hm
        cases c with
        | none => exact absurd rfl (h1 none hc)
        | some v =>
          have hv : v ∈ seenFinal [] cells := mem_seenFinal cells [] v (Or.inl hc)
          obtain ⟨i, hf⟩ := findIdx_isSome_of_mem hv
          have hilt : i < (seenFinal [] cells).length := findIdx_lt_length hf
          rw [← hmc]
          simp only [codeOf, hf, Option.getD_some]
          omega
      · intro hm
        have hi : (m - 1).toNat < (seenFinal [] cells).length := by omega
        have hvmem : some ((seenFinal [] cells).get ⟨(m - 1).toNat, hi⟩) ∈ cells := by
          rcases seenFinal_src cells [] _ (List.get_mem _ _ _) with h | h
          · cases h
          · exact h
        rw [hrepair]
        apply List.mem_map.mpr
        refine ⟨some ((seenFinal [] cells).get ⟨(m - 1).toNat, hi⟩), hvmem, ?_⟩
        have hnd : (seenFinal [] cells).Nodup := seenFinal_nodup cells [] List.nodup_nil
        simp only [codeOf, findIdx_get_of_nodup hnd _ hi, Option.getD_some]
        omega
    · intro i j hi hj heq
      rw [hg i hi, hg j hj, heq]

/-- Witness for C2 (amended): the all-blank branch numbers rows `1, 2`, and
a table with a duplicate raw id gets the dense id set `{1, …, k}`. -/
theorem repair_ids_dense_amended_witness :
    repair_ids [some (Value.str ""), some (Value.str "")] = [1, 2] ∧
      ∃ k : Nat,
        k ≤ ([some (Value.str "A1"), some (Value.str "B"), some (Value.str "A1")] : List Cell).length ∧
        ∀ m : Int, m ∈ repair_ids [some (Value.str "A1"), some (Value.str "B"), some (Value.str "A1")] ↔
          1 ≤ m ∧ m ≤ (k : Int) :=
  ⟨((repair_ids_dense_amended [some (Value.str ""), some (Value.str "")]).1
      (Or.inr (by decide))).trans (by decide),
   (((repair_ids_dense_amended [some (Value.str "A1"), some (Value.str "B"), some (Value.str "A1")]).2
      (by decide) (by decide)).imp (fun k hk => ⟨hk.1, hk.2.1⟩))⟩

/-! ## Role normalization (C7) -/

/-- **C7**: `normalize_role` is total into {"Provider", "Receiver"}: writing
`t` for the stripped lower-cased string form of the input, an input whose
`t` contains the substring "receiv" or equals "receiver", "acceptor" or
"beneficiary" yields "Receiver"; every other input — including the blank
string — yields "Provider"; no other output is ever produced. -/
theorem normalize_role_total (c : Cell) :
    (normalize_role c = "Provider" ∨ normalize_role c = "Receiver") ∧
    (strContains "receiv" (roleKey c) = true ∨ roleKey c = "receiver" ∨
        roleKey c = "acceptor" ∨ roleKey c = "beneficiary" →
      normalize_role c = "Receiver") ∧
    (strContains "receiv" (roleKey c) = false ∧ roleKey c ≠ "receiver" ∧
        roleKey c ≠ "acceptor" ∧ roleKey c ≠ "beneficiary" →
      normalize_role c = "Provider") ∧
    normalize_role (some (Value.str "")) = "Provider" := by
  refine ⟨?_, ?_, ?_, by decide⟩
  · unfold normalize_role
    by_cases hb : (strContains "receiv" (roleKey c) || (roleKey c == "receiver") ||
        (roleKey c == "acceptor") || (roleKey c == "beneficiary")) = true
    · rw [if_pos hb]; exact Or.inr rfl
    · rw [if_neg hb]; exact Or.inl rfl
  · intro h
    rcases h with h | h | h | h <;> simp [normalize_role, h]
  · rintro ⟨h1, h2, h3, h4⟩
    have hb : (strContains "receiv" (roleKey c) || (roleKey c == "receiver") ||
        (roleKey c == "acceptor") || (roleKey c == "beneficiary")) = false := by
      simp [h1, h2, h3, h4]
    unfold normalize_role
    rw [hb]
    simp

/-- Witness for C7: a "Receiving NGO" role maps to Receiver, a "donor" role
defaults to Provider. -/
theorem normalize_role_total_witness :
    normalize_role (some (Value.str "Receiving NGO")) = "Receiver" ∧
    normalize_role (some (Value.str "donor")) = "Provider" :=
  ⟨(normalize_role_total (some (Value.str "Receiving NGO"))).2.1 (Or.inl (by decide)),
   (normalize_role_total (some (Value.str "donor"))).2.2.1
     ⟨by decide, by decide, by decide, by decide⟩⟩

/-! ## Contact-link builders (C9) -/

/-- **C9**: on a digits-only phone, `tel_link` is `tel:` followed by the
phone unchanged and `whatsapp_link` is the `wa.me` URI with the phone
unchanged and the URL-encoded prefilled message; `mailto_link` takes the
email as-is with URL-encoded subject and body. -/
theorem contact_links_spec (p msg e subj body : String)
    (hp : p.data.all Char.isDigit = true) :
    tel_link p = "tel:" ++ p ∧
    whatsapp_link p msg = "https://wa.me/" ++ p ++ "?text=" ++ quote_plus msg ∧
    mailto_link e subj body =
      "mailto:" ++ e ++ "?subject=" ++ quote_plus subj ++ "&body=" ++ quote_plus body := by
  have hd : digitsOnly p = p := by
    unfold digitsOnly
    rw [List.filter_eq_self.mpr (List.all_eq_true.mp hp)]
  exact ⟨by unfold tel_link; rw [hd], by unfold whatsapp_link; rw [hd], rfl⟩

/-- Witness for C9 at a concrete digits-only phone and message. -/
theorem contact_links_spec_witness :
    tel_link "9876543210" = "tel:" ++ "9876543210" ∧
    whatsapp_link "9876543210" "Hello there" =
      "https://wa.me/" ++ "9876543210" ++ "?text=" ++ quote_plus "Hello there" ∧
    mailto_link "a@b.org" "Food Donation" "Hi" =
      "mailto:" ++ "a@b.org" ++ "?subject=" ++ quote_plus "Food Donation" ++ "&body=" ++ quote_plus "Hi" :=
  contact_links_spec "9876543210" "Hello there" "a@b.org" "Food Donation" "Hi" (by decide)

/-! ## Mandatory-field gate of `ensure_schema` (C3) -/

theorem normBuild_cols (df : Table) (mapping : String → Option String) :
    (normBuild df mapping).cols = DEFAULT_COLUMNS := by
  simp [Table.cols, normBuild, List.map_map, Function.comp_def]

/-- **C3**: if after alias matching some mandatory field is unresolved and
the interactive prompt supplies nothing for it, `ensure_schema` halts,
signalling exactly the list of unresolved mandatory fields; in every other
case it never fails and returns a table with exactly the ten canonical
columns. -/
theorem ensure_schema_gate (df : Table) (supplied : String → Option String) :
    ((∃ k ∈ effMissing df, supplied k = none) →
        ensure_schema df supplied = Except.error (effMissing df)) ∧
    ((∀ k ∈ effMissing df, (supplied k).isSome) →
        ∃ t, ensure_schema df supplied = Except.ok t ∧ t.cols = DEFAULT_COLUMNS) := by
  constructor
  · rintro ⟨k, hk, hnone⟩
    unfold ensure_schema
    rw [if_pos]
    apply List.any_eq_true.mpr
    refine ⟨k, hk, ?_⟩
    unfold effMapping
    rw [if_pos hk, hnone]
    rfl
  · intro h
    unfold ensure_schema
    rw [if_neg]
    · exact ⟨_, rfl, normBuild_cols df _⟩
    · intro hany
      obtain ⟨k, hk, hik⟩ := List.any_eq_true.mp hany
      unfold effMapping at hik
      rw [if_pos hk] at hik
      cases hsk : supplied k with
      | none =>
        have := h k hk
        rw [hsk] at this
        cases this
      | some v =>
        rw [hsk] at hik
        cases hik

/-- A raw table with no `city`-like column (and no `id`-like column). -/
def cityMissingTable : Table :=
  ⟨[("Org", [some (Value.str "Helping Hands")]),
    ("Type", [some (Value.str "Provider")]),
    ("Food", [some (Value.str "Veg Meals")]),
    ("Contact No", [some (Value.str "98765-43210")])]⟩

/-- The raw table of the spec's walk-through scenario. -/
def scenTable : Table :=
  ⟨[("Sr No", [some (Value.str "")]),
    ("Org", [some (Value.str "Helping Hands")]),
    ("Type", [some (Value.str "Provider")]),
    ("City", [some (Value.str "Pune")]),
    ("Food", [some (Value.str "Veg Meals")]),
    ("Contact No", [some (Value.str "98765-43210")])]⟩

/-- Witness for C3: a table without a `city`-like column halts with
`["city"]` unresolved; the spec's scenario table passes and yields the ten
canonical columns. -/
theorem ensure_schema_gate_witness :
    ensure_schema cityMissingTable (fun _ => none) = Except.error ["city"] ∧
    ∃ t, ensure_schema scenTable (fun _ => none) = Except.ok t ∧ t.cols = DEFAULT_COLUMNS :=
  ⟨((ensure_schema_gate cityMissingTable (fun _ => none)).1 ⟨"city", by decide, rfl⟩).trans
      (congrArg Except.error (by decide)),
   (ensure_schema_gate scenTable (fun _ => none)).2 (by decide)⟩

/-! ## Structure of the normalized table (C8) -/

theorem lookup_map_self {β : Type} (f : String → β) :
    ∀ (l : List String) (tgt : String), tgt ∈ l →
      (l.map (fun x => (x, f x))).lookup tgt = some (f tgt) := by
  intro l
  induction l with
  | nil => intro tgt h; cases h
  | cons x xs ih =>
    intro tgt h
    simp only [List.map_cons, List.lookup]
    by_cases hx : tgt = x
    · subst hx
      simp
    · have hbeq : (tgt == x) = false := beq_eq_false_iff_ne.mpr hx
      rw [hbeq]
      rcases List.mem_cons.mp h with he | hmem
      · exact absurd he hx
      · exact ih tgt hmem

theorem lookup_pair_mem {k : String} {v : List Cell} :
    ∀ {l : List (String × List Cell)}, l.lookup k = some v → (k, v) ∈ l := by
  intro l
  induction l with
  | nil => intro h; cases h
  | cons p rest ih =>
    intro h
    obtain ⟨a, b⟩ := p
    simp only [List.lookup] at h
    by_cases ha : k = a
    · subst ha
      rw [beq_self_eq_true] at h
      simp only at h
      cases h
      exact List.mem_cons_self _ _
    · rw [beq_eq_false_iff_ne.mpr ha] at h
      simp only at h
      exact List.mem_cons_of_mem _ (ih h)

theorem getCol_normBuild (df : Table) (mapping : String → Option String) (tgt : String)
    (h : tgt ∈ DEFAULT_COLUMNS) :
    getCol (normBuild df mapping) tgt = normCol df mapping tgt := by
  unfold getCol normBuild
  rw [lookup_map_self (normCol df mapping) DEFAULT_COLUMNS tgt h]
  rfl

theorem mem_blankCol {n : Nat} {x : Cell} (h : x ∈ blankCol n) : x = some (Value.str "") :=
  List.eq_of_mem_replicate h

theorem mem_reindexTo {n : Nat} {l : List Cell} {x : Cell} (h : x ∈ reindexTo n l) :
    x = none ∨ x ∈ l := by
  unfold reindexTo at h
  obtain ⟨i, hi, rfl⟩ := List.mem_map.mp h
  by_cases hlt : i < l.length
  · right
    rw [List.getD_eq_getElem _ _ hlt]
    exact List.getElem_mem hlt
  · left
    exact List.getD_eq_default _ _ (le_of_not_lt hlt)

theorem mem_getCol {df : Table} {src : String} {x : Cell} (h : x ∈ getCol df src) :
    ∃ p ∈ df.colsData, x ∈ p.2 := by
  unfold getCol at h
  cases hl : df.colsData.lookup src with
  | none => rw [hl] at h; simp at h
  | some col =>
    rw [hl] at h
    exact ⟨(src, col), lookup_pair_mem hl, h⟩

theorem mem_projCol {df : Table} {mapping : String → Option String} {tgt : String} {x : Cell}
    (h : x ∈ projCol df mapping tgt) :
    x = none ∨ x = some (Value.str "") ∨ ∃ p ∈ df.colsData, x ∈ p.2 := by
  unfold projCol at h
  split at h
  · split at h
    · rcases mem_reindexTo h with h | h
      · exact Or.inl h
      · exact Or.inr (Or.inr (mem_getCol h))
    · exact Or.inr (Or.inl (mem_blankCol h))
  · exact Or.inr (Or.inl (mem_blankCol h))

instance : DecidableEq (Except (List String) Table) := fun a b =>
  match a, b with
  | Except.ok x, Except.ok y =>
    if h : x = y then isTrue (by rw [h]) else isFalse (fun hc => by cases hc; exact h rfl)
  | Except.error x, Except.error y =>
    if h : x = y then isTrue (by rw [h]) else isFalse (fun hc => by cases hc; exact h rfl)
  | Except.ok _, Except.error _ => isFalse (fun hc => by cases hc)
  | Except.error _, Except.ok _ => isFalse (fun hc => by cases hc)

/-- Is the cell's value not an integer?  (Blank or string or missing.) -/
def isStrCell : Cell → Bool
  | some (Value.intv _) => false
  | _ => true

/-- The normalized table of the spec's walk-through scenario. -/
def scenNormTable : Table :=
  ⟨[("id", [some (Value.intv 1)]),
    ("city", [some (Value.str "Pune")]),
    ("name", [some (Value.str "Helping Hands")]),
    ("role", [some (Value.str "Provider")]),
    ("food_type", [some (Value.str "Veg Meals")]),
    ("meal_type", [some (Value.str "")]),
    ("phone", [some (Value.str "9876543210")]),
    ("email", [some (Value.str "")]),
    ("address", [some (Value.str "")]),
    ("notes", [some (Value.str "")])]⟩

/-- **C8** counterexample: the normalized `id` column holds integers
(`range`/`factorize` output), not strings, so not all ten fields are
coerced to strings. -/
theorem normalized_id_cell_counterexample :
    ensure_schema scenTable (fun _ => none) = Except.ok scenNormTable ∧
    getCol scenNormTable "id" = [some (Value.intv 1)] ∧
    ∀ s : String, Value.intv 1 ≠ Value.str s :=
  ⟨by decide, by decide, fun s h => by cases h⟩

/-- **C8** (amended): no null ever escapes the normalizer — every cell of
the normalized table is present.  The `id` cells are integers (not
strings); `role` and `phone` cells are strings unconditionally, by
construction; and every other column's cells are strings whenever the raw
table holds no integer values, with missing values replaced by the blank
string. -/
theorem normalized_no_null_amended (df : Table) (supplied : String → Option String)
    (t : Table) (h : ensure_schema df supplied = Except.ok t) :
    (∀ p ∈ t.colsData, ∀ c ∈ p.2, c ≠ none) ∧
    (∀ c ∈ getCol t "id", ∃ m : Int, c = some (Value.intv m)) ∧
    (∀ c ∈ getCol t "role", ∃ s, c = some (Value.str s)) ∧
    (∀ c ∈ getCol t "phone", ∃ s, c = some (Value.str s)) ∧
    ((∀ q ∈ df.colsData, ∀ c ∈ q.2, isStrCell c = true) →
        ∀ tgt ∈ DEFAULT_COLUMNS, tgt ≠ "id" →
        ∀ c ∈ getCol t tgt, ∃ s, c = some (Value.str s)) := by
  have ht : t = normBuild df (effMapping df supplied) := by
    unfold ensure_schema at h
    by_cases hc : ((effMissing df).any fun k => (effMapping df supplied k).isNone) = true
    · rw [if_pos hc] at h; cases h
    · rw [if_neg hc] at h
      exact (Except.ok.inj h).symm
  subst ht
  refine ⟨?_, ?_, ?_, ?_, ?_⟩
  · intro p hp c hc
    obtain ⟨tgt, htgt, rfl⟩ := List.mem_map.mp hp
    simp only at hc
    unfold normCol at hc
    by_cases h1 : tgt = "id"
    · rw [if_pos h1] at hc
      obtain ⟨m, -, rfl⟩ := List.mem_map.mp hc
      simp
    · rw [if_neg h1] at hc
      by_cases h2 : tgt = "role"
      · rw [if_pos h2] at hc
        obtain ⟨x, -, rfl⟩ := List.mem_map.mp hc
        simp
      · rw [if_neg h2] at hc
        by_cases h3 : tgt = "phone"
        · rw [if_pos h3] at hc
          obtain ⟨x, -, rfl⟩ := List.mem_map.mp hc
          simp
        · rw [if_neg h3] at hc
          obtain ⟨x, -, rfl⟩ := List.mem_map.mp hc
          cases x <;> simp [fillCell]
  · rw [getCol_normBuild df _ "id" (by decide)]
    unfold normCol
    rw [if_pos rfl]
    intro c hc
    obtain ⟨m, -, rfl⟩ := List.mem_map.mp hc
    exact ⟨m, rfl⟩
  · rw [getCol_normBuild df _ "role" (by decide)]
    unfold normCol
    rw [if_neg (by decide), if_pos rfl]
    intro c hc
    obtain ⟨x, -, rfl⟩ := List.mem_map.mp hc
    exact ⟨_, rfl⟩
  · rw [getCol_normBuild df _ "phone" (by decide)]
    unfold normCol
    rw [if_neg (by decide), if_neg (by decide), if_pos rfl]
    intro c hc
    obtain ⟨x, -, rfl⟩ := List.mem_map.mp hc
    exact ⟨_, rfl⟩
  · intro hstr tgt htgt hne c hc
    rw [getCol_normBuild df _ tgt htgt] at hc
    unfold normCol at hc
    rw [if_neg hne] at hc
    by_cases h2 : tgt = "role"
    · rw [if_pos h2] at hc
      obtain ⟨x, -, rfl⟩ := List.mem_map.mp hc
      exact ⟨_, rfl⟩
    · rw [if_neg h2] at hc
      by_cases h3 : tgt = "phone"
      · rw [if_pos h3] at hc
        obtain ⟨x, -, rfl⟩ := List.mem_map.mp hc
        exact ⟨_, rfl⟩
      · rw [if_neg h3] at hc
        obtain ⟨x, hx, rfl⟩ := List.mem_map.mp hc
        rcases mem_projCol hx with hx0 | hx0 | ⟨p, hpmem, hxp⟩
        · subst hx0
          exact ⟨"", rfl⟩
        · subst hx0
          exact ⟨"", rfl⟩
        · cases x with
          | none => exact ⟨"", rfl⟩
          | some v =>
            cases v with
            | str s => exact ⟨s, rfl⟩
            | intv m =>
              have := hstr p hpmem _ hxp
              simp [isStrCell] at this

/-- Witness for C8 (amended) at the scenario table: no null cell escapes,
role and phone cells are strings, and every non-id cell is a string. -/
theorem normalized_no_null_amended_witness :
    (∀ p ∈ scenNormTable.colsData, ∀ c ∈ p.2, c ≠ none) ∧
    (∀ c ∈ getCol scenNormTable "role", ∃ s, c = some (Value.str s)) ∧
    (∀ c ∈ getCol scenNormTable "phone", ∃ s, c = some (Value.str s)) ∧
    (∀ tgt ∈ DEFAULT_COLUMNS, tgt ≠ "id" →
        ∀ c ∈ getCol scenNormTable tgt, ∃ s, c = some (Value.str s)) :=
  ⟨(normalized_no_null_amended scenTable (fun _ => none) scenNormTable (by decide)).1,
   (normalized_no_null_amended scenTable (fun _ => none) scenNormTable (by decide)).2.2.1,
   (normalized_no_null_amended scenTable (fun _ => none) scenNormTable (by decide)).2.2.2.1,
   (normalized_no_null_amended scenTable (fun _ => none) scenNormTable (by decide)).2.2.2.2
     (by decide)⟩

/-! ## Projection row-count bug (C4) -/

/-- A raw table whose columns resolve for every mandatory field but contain
nothing `id`-like: `["City", "Org", "Type", "Food", "Contact"]`, one row. -/
def noIdTable : Table :=
  ⟨[("City", [some (Value.str "Pune")]),
    ("Org", [some (Value.str "Helping Hands")]),
    ("Type", [some (Value.str "Provider")]),
    ("Food", [some (Value.str "Veg")]),
    ("Contact", [some (Value.str "98765")])]⟩

/-- **C4**: evaluation at the failing input.  `unified["id"] = ""` on the
still-empty DataFrame creates a zero-length index, and every later column
assignment aligns to that empty index, so a one-row raw table without an
`id`-like column projects — and normalizes — to a table with ten columns
and zero rows, instead of preserving the row count. -/
theorem project_drops_rows_bug :
    (getCol noIdTable "City").length = 1 ∧
    buildMapping noIdTable.cols "id" = none ∧
    (project noIdTable (effMapping noIdTable (fun _ => none))).colsData =
      DEFAULT_COLUMNS.map (fun tgt => (tgt, ([] : List Cell))) ∧
    ensure_schema noIdTable (fun _ => none) =
      Except.ok ⟨DEFAULT_COLUMNS.map (fun tgt => (tgt, ([] : List Cell)))⟩ := by
  decide

/-! ## Idempotence of the id repair (towards C6) -/

/-- Checks that a code list is canonical relative to the next fresh code
`k`: every code is either a repeat (`0 ≤ x < k`) or the next fresh one. -/
def canonChk (k : Int) : List Int → Bool
  | [] => true
  | x :: xs => if x = k then canonChk (k + 1) xs else decide (0 ≤ x) && decide (x < k) && canonChk k xs

theorem factorizeGo_canon :
    ∀ (cells : List Cell) (seen : List Value), (∀ c ∈ cells, c ≠ none) →
      canonChk (seen.length : Int) (factorizeGo seen cells) = true := by
  intro cells
  induction cells with
  | nil => intro seen _; rfl
  | cons c rest ih =>
    intro seen hsome
    cases c with
    | none => exact absurd rfl (hsome none (List.mem_cons_self _ _))
    | some v =>
      simp only [factorizeGo]
      cases hf : findIdx v seen with
      | some i =>
        have hi : i < seen.length := findIdx_lt_length hf
        simp only [canonChk]
        rw [if_neg (by intro he; omega)]
        simp only [Bool.and_eq_true, decide_eq_true_eq]
        exact ⟨⟨by omega, by omega⟩,
          ih seen (fun d hd => hsome d (List.mem_cons_of_mem _ hd))⟩
      | none =>
        simp only [canonChk]
        rw [if_pos trivial]
        have hrec := ih (seen ++ [v]) (fun d hd => hsome d (List.mem_cons_of_mem _ hd))
        have h2 : (((seen ++ [v]).length : Nat) : Int) = (seen.length : Int) + 1 := by
          simp
        rw [h2] at hrec
        exact hrec

theorem factorizeGo_relabel :
    ∀ (codes : List Int) (k : Nat), canonChk (k : Int) codes = true →
      factorizeGo ((List.range k).map (fun i : Nat => Value.intv ((i : Int) + 1)))
        (codes.map (fun i => some (Value.intv (i + 1)))) = codes := by
  intro codes
  induction codes with
  | nil => intro k _; rfl
  | cons x xs ih =>
    intro k hc
    simp only [canonChk] at hc
    simp only [List.map_cons, factorizeGo]
    by_cases hx : x = (k : Int)
    · rw [if_pos hx] at hc
      have hnot : Value.intv (x + 1) ∉
          (List.range k).map (fun i : Nat => Value.intv ((i : Int) + 1)) := by
        intro hmem
        obtain ⟨i, hi, he⟩ := List.mem_map.mp hmem
        have he2 := Value.intv.inj he
        have := List.mem_range.mp hi
        omega
      rw [findIdx_eq_none_iff.mpr hnot]
      have hseen : (List.range k).map (fun i : Nat => Value.intv ((i : Int) + 1)) ++ [Value.intv (x + 1)]
          = (List.range (k + 1)).map (fun i : Nat => Value.intv ((i : Int) + 1)) := by
        rw [List.range_succ, List.map_append]
        simp [hx]
      rw [hseen, ih (k + 1) (by exact_mod_cast hc)]
      simp [hx]
    · rw [if_neg hx] at hc
      simp only [Bool.and_eq_true, decide_eq_true_eq] at hc
      obtain ⟨⟨hx0, hxk⟩, hrest⟩ := hc
      have hnd : ((List.range k).map (fun i : Nat => Value.intv ((i : Int) + 1))).Nodup :=
        (List.nodup_range k).map (fun a b hab => by
          have := Value.intv.inj hab
          omega)
      have hlt : x.toNat < ((List.range k).map (fun i : Nat => Value.intv ((i : Int) + 1))).length := by
        simp
        omega
      have hget : ((List.range k).map (fun i : Nat => Value.intv ((i : Int) + 1))).get ⟨x.toNat, hlt⟩
          = Value.intv (x + 1) := by
        simp only [List.get_eq_getElem, List.getElem_map, List.getElem_range]
        have hc2 : ((x.toNat : Nat) : Int) = x := by omega
        rw [hc2]
      have hf := findIdx_get_of_nodup hnd x.toNat hlt
      rw [hget] at hf
      simp only [hf]
      rw [ih k hrest]
      simp [Int.toNat_of_nonneg hx0]

/-- Re-running the id repair on its own output (ints re-read as id labels)
is the identity, provided the original id cells were all present or all
missing — the situation in which the first pass produced canonical codes. -/
theorem repair_ids_restore (cells : List Cell)
    (hid : (∀ c ∈ cells, c ≠ none) ∨ (∀ c ∈ cells, c = none)) :
    repair_ids ((repair_ids cells).map (fun v => some (Value.intv v))) = repair_ids cells := by
  by_cases hb : ((cells.all fun c => decide (c = none)) || (cells.all fun c => decide (c = some (Value.str "")))) = true
  · have hids : repair_ids cells = (List.range cells.length).map (fun i : Nat => (i : Int) + 1) := by
      unfold repair_ids
      rw [if_pos hb]
    rw [hids, List.map_map]
    have h1 : ∀ c ∈ (List.range cells.length).map
        ((fun v => some (Value.intv v)) ∘ fun i : Nat => (i : Int) + 1), c ≠ none := by
      intro c hc
      obtain ⟨i, -, rfl⟩ := List.mem_map.mp hc
      simp [Function.comp]
    have h2 : ((List.range cells.length).map
        ((fun v => some (Value.intv v)) ∘ fun i : Nat => (i : Int) + 1)).Nodup :=
      (List.nodup_range _).map (fun a b hab => by
        simp only [Function.comp_apply, Option.some.injEq] at hab
        have := Value.intv.inj hab
        omega)
    rw [repair_ids_of_nodup _ h1 h2]
    simp
  · have hsome : ∀ c ∈ cells, c ≠ none := by
      rcases hid with h | h
      · exact h
      · exfalso
        apply hb
        have hall : cells.all (fun c => decide (c = none)) = true :=
          List.all_eq_true.mpr (fun c hc => decide_eq_true (h c hc))
        simp [hall]
    have hids : repair_ids cells = (factorize cells).map (fun i => i + 1) := by
      unfold repair_ids
      rw [if_neg hb]
    have hcanon : canonChk 0 (factorize cells) = true := by
      have h0 := factorizeGo_canon cells [] hsome
      simpa using h0
    rw [hids, List.map_map]
    have hrelab : factorizeGo []
        ((factorize cells).map ((fun v => some (Value.intv v)) ∘ fun i => i + 1))
        = factorize cells := by
      have h0 := factorizeGo_relabel (factorize cells) 0 (by exact_mod_cast hcanon)
      simpa using h0
    have hcond : ¬((((factorize cells).map ((fun v => some (Value.intv v)) ∘ fun i => i + 1)).all
          fun c => decide (c = none)) ||
        (((factorize cells).map ((fun v => some (Value.intv v)) ∘ fun i => i + 1)).all
          fun c => decide (c = some (Value.str "")))) = true := by
      have hne : cells ≠ [] := by
        rintro rfl
        exact hb (by decide)
      have hlen : 0 < (factorize cells).length := by
        rw [factorize_length]
        cases cells with
        | nil => exact absurd rfl hne
        | cons a l => simp
      cases hfz : factorize cells with
      | nil => rw [hfz] at hlen; cases hlen
      | cons y ys =>
        intro hcontra
        rw [Bool.or_eq_true] at hcontra
        have hc2 : (decide ((some (Value.intv (y + 1)) : Cell) = none) = true) ∨
            (decide ((some (Value.intv (y + 1)) : Cell) = some (Value.str "")) = true) := by
          rcases hcontra with h | h
          · exact Or.inl (List.all_eq_true.mp h _ (by simp [Function.comp]))
          · exact Or.inr (List.all_eq_true.mp h _ (by simp [Function.comp]))
        rcases hc2 with h | h <;> simp at h
    have hrelab2 : factorize ((factorize cells).map ((fun v => some (Value.intv v)) ∘ fun i => i + 1))
        = factorize cells := hrelab
    unfold repair_ids
    rw [if_neg hcond]
    rw [hrelab2]

/-! ## The normalized table is a fixed point of the pipeline (towards C6) -/

theorem reindexTo_length (n : Nat) (l : List Cell) : (reindexTo n l).length = n := by
  simp [reindexTo]

theorem blankCol_length (n : Nat) : (blankCol n).length = n := by
  simp [blankCol]

theorem projCol_length (df : Table) (mapping : String → Option String) (tgt : String) :
    (projCol df mapping tgt).length = projIndexLen df mapping := by
  unfold projCol
  split
  · split
    · exact reindexTo_length _ _
    · exact blankCol_length _
  · exact blankCol_length _

theorem normCol_length (df : Table) (mapping : String → Option String) (tgt : String) :
    (normCol df mapping tgt).length = projIndexLen df mapping := by
  unfold normCol
  by_cases h1 : tgt = "id"
  · rw [if_pos h1, List.length_map, repair_ids_length, projCol_length]
  · rw [if_neg h1]
    by_cases h2 : tgt = "role"
    · rw [if_pos h2, List.length_map, projCol_length]
    · rw [if_neg h2]
      by_cases h3 : tgt = "phone"
      · rw [if_pos h3, List.length_map, projCol_length]
      · rw [if_neg h3, List.length_map, projCol_length]

theorem getD_range_map_self {α : Type} (l : List α) (d : α) :
    (List.range l.length).map (fun i => l.getD i d) = l := by
  induction l with
  | nil => rfl
  | cons a as ih =>
    rw [List.length_cons, List.range_succ_eq_map, List.map_cons, List.map_map]
    have htail : (List.range as.length).map ((fun i => (a :: as).getD i d) ∘ fun i => i + 1)
        = (List.range as.length).map (fun i => as.getD i d) :=
      List.map_congr_left (fun i _ => rfl)
    rw [htail, ih]
    rfl

theorem reindexTo_self (l : List Cell) : reindexTo l.length l = l :=
  getD_range_map_self l none

/-- The mapping computed by alias matching over the canonical column names:
each canonical field resolves to itself. -/
def canonicalMapping : String → Option String :=
  fun k => buildMapping DEFAULT_COLUMNS k

theorem canonicalMapping_eq : ∀ tgt ∈ DEFAULT_COLUMNS, canonicalMapping tgt = some tgt := by
  decide

theorem projIndexLen_congr {df : Table} {m1 m2 : String → Option String}
    (h : m1 "id" = m2 "id") : projIndexLen df m1 = projIndexLen df m2 := by
  unfold projIndexLen
  rw [h]

theorem projCol_congr {df : Table} {m1 m2 : String → Option String} {tgt : String}
    (hid : m1 "id" = m2 "id") (ht : m1 tgt = m2 tgt) :
    projCol df m1 tgt = projCol df m2 tgt := by
  unfold projCol
  rw [ht, projIndexLen_congr hid]

theorem normCol_congr {df : Table} {m1 m2 : String → Option String} {tgt : String}
    (h : ∀ k ∈ DEFAULT_COLUMNS, m1 k = m2 k) (htgt : tgt ∈ DEFAULT_COLUMNS) :
    normCol df m1 tgt = normCol df m2 tgt := by
  unfold normCol
  simp only [projCol_congr (h "id" (by decide)) (h "id" (by decide)),
    projCol_congr (h "id" (by decide)) (h "role" (by decide)),
    projCol_congr (h "id" (by decide)) (h "phone" (by decide)),
    projCol_congr (h "id" (by decide)) (h tgt htgt)]

theorem normBuild_ext {df1 df2 : Table} {m1 m2 : String → Option String}
    (h : ∀ tgt ∈ DEFAULT_COLUMNS, normCol df1 m1 tgt = normCol df2 m2 tgt) :
    normBuild df1 m1 = normBuild df2 m2 := by
  unfold normBuild
  congr 1
  apply List.map_congr_left
  intro tgt htgt
  rw [h tgt htgt]

theorem normBuild_congr {df : Table} {m1 m2 : String → Option String}
    (h : ∀ k ∈ DEFAULT_COLUMNS, m1 k = m2 k) :
    normBuild df m1 = normBuild df m2 :=
  normBuild_ext (fun _ htgt => normCol_congr h htgt)

theorem projCol_some {df : Table} {mapping : String → Option String} {tgt src : String}
    (h : mapping tgt = some src) :
    projCol df mapping tgt =
      if src ∈ df.cols then reindexTo (projIndexLen df mapping) (getCol df src)
      else blankCol (projIndexLen df mapping) := by
  unfold projCol
  rw [h]

theorem projIndexLen_some {df : Table} {mapping : String → Option String} {src : String}
    (h : mapping "id" = some src) :
    projIndexLen df mapping = if src ∈ df.cols then (getCol df src).length else 0 := by
  unfold projIndexLen
  rw [h]

theorem projCol_normBuild (df : Table) (mapping : String → Option String) (tgt : String)
    (htgt : tgt ∈ DEFAULT_COLUMNS) :
    projCol (normBuild df mapping) canonicalMapping tgt = normCol df mapping tgt := by
  have hmem : ∀ k ∈ DEFAULT_COLUMNS, k ∈ (normBuild df mapping).cols := by
    intro k hk
    rw [normBuild_cols]
    exact hk
  have hlen : projIndexLen (normBuild df mapping) canonicalMapping = projIndexLen df mapping := by
    rw [projIndexLen_some (canonicalMapping_eq "id" (by decide))]
    rw [if_pos (hmem "id" (by decide))]
    rw [getCol_normBuild df mapping "id" (by decide)]
    exact normCol_length df mapping "id"
  rw [projCol_some (canonicalMapping_eq tgt htgt)]
  rw [if_pos (hmem tgt htgt)]
  rw [getCol_normBuild df mapping tgt htgt]
  rw [hlen]
  rw [show projIndexLen df mapping = (normCol df mapping tgt).length from
    (normCol_length df mapping tgt).symm]
  exact reindexTo_self _

theorem normalize_role_idem (c : Cell) :
    normalize_role (some (Value.str (normalize_role c))) = normalize_role c := by
  have h : normalize_role c = "Provider" ∨ normalize_role c = "Receiver" := by
    unfold normalize_role
    split
    · exact Or.inr rfl
    · exact Or.inl rfl
  rcases h with h | h <;> rw [h] <;> decide

theorem digitsOnly_idem (s : String) : digitsOnly (digitsOnly s) = digitsOnly s := by
  unfold digitsOnly
  have : (String.mk (s.data.filter Char.isDigit)).data = s.data.filter Char.isDigit := rfl
  rw [this, List.filter_filter]
  congr 1
  apply List.filter_congr
  intro a _
  simp

theorem fillCell_idem (c : Cell) : fillCell (fillCell c) = fillCell c := by
  cases c <;> rfl

theorem normCol_fixed (df : Table) (mapping : String → Option String)
    (hid : (∀ c ∈ projCol df mapping "id", c ≠ none) ∨ (∀ c ∈ projCol df mapping "id", c = none)) :
    ∀ tgt ∈ DEFAULT_COLUMNS,
      normCol (normBuild df mapping) canonicalMapping tgt = normCol df mapping tgt := by
  intro tgt htgt
  by_cases h1 : tgt = "id"
  · subst h1
    have hL : normCol (normBuild df mapping) canonicalMapping "id"
        = (repair_ids (projCol (normBuild df mapping) canonicalMapping "id")).map
            (fun v => some (Value.intv v)) := by
      unfold normCol
      rw [if_pos rfl]
    have hR : normCol df mapping "id"
        = (repair_ids (projCol df mapping "id")).map (fun v => some (Value.intv v)) := by
      unfold normCol
      rw [if_pos rfl]
    rw [hL, projCol_normBuild df mapping "id" (by decide), hR]
    rw [repair_ids_restore (projCol df mapping "id") hid]
  · by_cases h2 : tgt = "role"
    · subst h2
      have hL : normCol (normBuild df mapping) canonicalMapping "role"
          = (projCol (normBuild df mapping) canonicalMapping "role").map
              (fun c => some (Value.str (normalize_role c))) := by
        unfold normCol
        rw [if_neg (by decide), if_pos rfl]
      have hR : normCol df mapping "role"
          = (projCol df mapping "role").map (fun c => some (Value.str (normalize_role c))) := by
        unfold normCol
        rw [if_neg (by decide), if_pos rfl]
      rw [hL, projCol_normBuild df mapping "role" (by decide), hR, List.map_map]
      apply List.map_congr_left
      intro c _
      simp only [Function.comp_apply]
      rw [normalize_role_idem]
    · by_cases h3 : tgt = "phone"
      · subst h3
        have hL : normCol (normBuild df mapping) canonicalMapping "phone"
            = (projCol (normBuild df mapping) canonicalMapping "phone").map
                (fun c => some (Value.str (digitsOnly (pyStr c)))) := by
          unfold normCol
          rw [if_neg (by decide), if_neg (by decide), if_pos rfl]
        have hR : normCol df mapping "phone"
            = (projCol df mapping "phone").map (fun c => some (Value.str (digitsOnly (pyStr c)))) := by
          unfold normCol
          rw [if_neg (by decide), if_neg (by decide), if_pos rfl]
        rw [hL, projCol_normBuild df mapping "phone" (by decide), hR, List.map_map]
        apply List.map_congr_left
        intro c _
        simp only [Function.comp_apply]
        have hpy : pyStr (some (Value.str (digitsOnly (pyStr c)))) = digitsOnly (pyStr c) := rfl
        rw [hpy, digitsOnly_idem]
      · have hL : normCol (normBuild df mapping) canonicalMapping tgt
            = (projCol (normBuild df mapping) canonicalMapping tgt).map fillCell := by
          unfold normCol
          rw [if_neg h1, if_neg h2, if_neg h3]
        have hR : normCol df mapping tgt = (projCol df mapping tgt).map fillCell := by
          unfold normCol
          rw [if_neg h1, if_neg h2, if_neg h3]
        rw [hL, projCol_normBuild df mapping tgt htgt, hR, List.map_map]
        apply List.map_congr_left
        intro c _
        simp only [Function.comp_apply]
        rw [fillCell_idem]

theorem ensure_schema_normBuild_fixed (df : Table) (mapping : String → Option String)
    (g : String → Option String)
    (hid : (∀ c ∈ projCol df mapping "id", c ≠ none) ∨ (∀ c ∈ projCol df mapping "id", c = none)) :
    ensure_schema (normBuild df mapping) g = Except.ok (normBuild df mapping) := by
  have hcols : (normBuild df mapping).cols = DEFAULT_COLUMNS := normBuild_cols df mapping
  have hmiss : effMissing (normBuild df mapping) = [] := by
    unfold effMissing
    rw [hcols]
    decide
  unfold ensure_schema
  rw [hmiss]
  rw [if_neg (by simp)]
  refine congrArg Except.ok ?_
  have hm2 : ∀ k ∈ DEFAULT_COLUMNS, effMapping (normBuild df mapping) g k = canonicalMapping k := by
    intro k _
    unfold effMapping
    rw [hmiss]
    simp only [List.not_mem_nil, if_false]
    rw [hcols]
    rfl
  rw [normBuild_congr hm2]
  exact normBuild_ext (normCol_fixed df mapping hid)

/-- A raw table whose `id` column mixes a present value with a missing one. -/
def nanIdTable : Table :=
  ⟨[("id", [some (Value.str "A1"), none]),
    ("city", [some (Value.str "Pune"), some (Value.str "Delhi")]),
    ("name", [some (Value.str "X"), some (Value.str "Y")]),
    ("role", [some (Value.str "Provider"), some (Value.str "Receiver")]),
    ("food_type", [some (Value.str "Veg"), some (Value.str "NonVeg")]),
    ("phone", [some (Value.str "12"), some (Value.str "34")])]⟩

/-- First normalization of `nanIdTable`: the missing id gets factorize's
sentinel, hence repaired id `0`. -/
def nanIdNorm1 : Table :=
  ⟨[("id", [some (Value.intv 1), some (Value.intv 0)]),
    ("city", [some (Value.str "Pune"), some (Value.str "Delhi")]),
    ("name", [some (Value.str "X"), some (Value.str "Y")]),
    ("role", [some (Value.str "Provider"), some (Value.str "Receiver")]),
    ("food_type", [some (Value.str "Veg"), some (Value.str "NonVeg")]),
    ("meal_type", [some (Value.str ""), some (Value.str "")]),
    ("phone", [some (Value.str "12"), some (Value.str "34")]),
    ("email", [some (Value.str ""), some (Value.str "")]),
    ("address", [some (Value.str ""), some (Value.str "")]),
    ("notes", [some (Value.str ""), some (Value.str "")])]⟩

/-- Second normalization: the ids `[1, 0]` are re-factorized to `[1, 2]`. -/
def nanIdNorm2 : Table :=
  ⟨[("id", [some (Value.intv 1), some (Value.intv 2)]),
    ("city", [some (Value.str "Pune"), some (Value.str "Delhi")]),
    ("name", [some (Value.str "X"), some (Value.str "Y")]),
    ("role", [some (Value.str "Provider"), some (Value.str "Receiver")]),
    ("food_type", [some (Value.str "Veg"), some (Value.str "NonVeg")]),
    ("meal_type", [some (Value.str ""), some (Value.str "")]),
    ("phone", [some (Value.str "12"), some (Value.str "34")]),
    ("email", [some (Value.str ""), some (Value.str "")]),
    ("address", [some (Value.str ""), some (Value.str "")]),
    ("notes", [some (Value.str ""), some (Value.str "")])]⟩

/-- **C6** counterexample: a table produced by the pipeline from a raw table
whose id column mixed a present and a missing value is *not* a fixed point:
its ids `[1, 0]` re-normalize to `[1, 2]`. -/
theorem ensure_schema_not_idempotent_counterexample :
    ensure_schema nanIdTable (fun _ => none) = Except.ok nanIdNorm1 ∧
    ensure_schema nanIdNorm1 (fun _ => none) = Except.ok nanIdNorm2 ∧
    nanIdNorm1 ≠ nanIdNorm2 := by
  refine ⟨by decide, by decide, by decide⟩

/-- **C6** (amended): applying the pipeline a second time to a table it
produced yields the identical table, *provided* the projected id column of
the first run had no missing value mixed in (all present, or all missing):
under that proviso the first run's ids are canonical dense codes and every
other column transformation is idempotent. -/
theorem ensure_schema_idempotent_amended (df : Table) (f g : String → Option String)
    (t : Table) (h : ensure_schema df f = Except.ok t)
    (hid : (∀ c ∈ projCol df (effMapping df f) "id", c ≠ none) ∨
           (∀ c ∈ projCol df (effMapping df f) "id", c = none)) :
    ensure_schema t g = Except.ok t := by
  have ht : t = normBuild df (effMapping df f) := by
    unfold ensure_schema at h
    by_cases hc : ((effMissing df).any fun k => (effMapping df f k).isNone) = true
    · rw [if_pos hc] at h; cases h
    · rw [if_neg hc] at h
      exact (Except.ok.inj h).symm
  subst ht
  exact ensure_schema_normBuild_fixed df (effMapping df f) g hid

/-- A one-row raw table with a present id. -/
def oneRowTable : Table :=
  ⟨[("id", [some (Value.str "7")]),
    ("city", [some (Value.str "Pune")]),
    ("name", [some (Value.str "Org")]),
    ("role", [some (Value.str "p")]),
    ("food_type", [some (Value.str "Veg")]),
    ("phone", [some (Value.str "1a2")])]⟩

/-- The normalization of `oneRowTable`. -/
def oneRowNorm : Table :=
  ⟨[("id", [some (Value.intv 1)]),
    ("city", [some (Value.str "Pune")]),
    ("name", [some (Value.str "Org")]),
    ("role", [some (Value.str "Provider")]),
    ("food_type", [some (Value.str "Veg")]),
    ("meal_type", [some (Value.str "")]),
    ("phone", [some (Value.str "12")]),
    ("email", [some (Value.str "")]),
    ("address", [some (Value.str "")]),
    ("notes", [some (Value.str "")])]⟩

/-- Witness for C6 (amended): the normalization of a table with a present
id re-normalizes to itself. -/
theorem ensure_schema_idempotent_amended_witness :
    ensure_schema oneRowNorm (fun _ => none) = Except.ok oneRowNorm :=
  ensure_schema_idempotent_amended oneRowTable (fun _ => none) (fun _ => none) oneRowNorm
    (by decide) (Or.inl (by decide))

end FoodApp
